import Mathlib

/-
Shallow embedding of the normalization engine of hraband/realestate-preprocessor
(src/service/app/normalize.py together with the data model of
src/service/app/models.py), and verification of the spec's claims about it.

Modelling conventions:
* Python `int` is modelled by `ℤ`, Python `float` by `ℚ` (exact arithmetic).
  Where a claim depends on it, the overflow outcome of `float(s)` (an
  infinite result past the IEEE-754 double range) is modelled explicitly by
  `PyFloat`; rounding of finite values to doubles and nan are outside the
  model.
* Python strings are Lean `String`s; character-level processing is done on
  `List Char`.  The Python character classes `\d`, `\s`, `\w`, `str.lower`,
  `unicodedata` are modelled on the character repertoire the spec exercises
  (ASCII, plus the precomposed accented letters of the spec's examples);
  other code points are left untouched.
* Fallible Python operations (`float(s)`, `int(s)`) return `Option`;
  a raising computation is modelled with `Except` where a claim is about
  exceptions.
-/

set_option maxRecDepth 2048

namespace Normalize

/-- Models the Python regex class `[0-9]` (the ASCII fragment of `\d`). -/
def isPyDigit (c : Char) : Bool := decide (48 ≤ c.toNat ∧ c.toNat ≤ 57)

/-- Models the Python regex class `\s` (ASCII fragment: space, `\t`, `\n`, `\v`, `\f`, `\r`). -/
def isPySpace (c : Char) : Bool := decide (c.toNat = 32 ∨ (9 ≤ c.toNat ∧ c.toNat ≤ 13))

/-- Models the Python regex class `\w` (ASCII fragment: letters, digits, underscore). -/
def isPyWord (c : Char) : Bool :=
  decide ((97 ≤ c.toNat ∧ c.toNat ≤ 122) ∨ (65 ≤ c.toNat ∧ c.toNat ≤ 90) ∨
    (48 ≤ c.toNat ∧ c.toNat ≤ 57) ∨ c.toNat = 95)

/-- Models Python `str.lower` on a single character (ASCII fragment). -/
def pyLower (c : Char) : Char :=
  if 65 ≤ c.toNat ∧ c.toNat ≤ 90 then Char.ofNat (c.toNat + 32) else c

/-- Models `unicodedata.combining(c) != 0` for the combining-diacritics block
U+0300..U+036F, which covers the marks produced by `nfkdChar`. -/
def isCombiningMark (c : Char) : Bool := decide (768 ≤ c.toNat ∧ c.toNat ≤ 879)

/-- Models `unicodedata.normalize("NFKD", ·)` on a single character: the
precomposed letters exercised by the spec's examples (`É` U+00C9, `é` U+00E9)
decompose into base letter plus U+0301 COMBINING ACUTE ACCENT; every other
character is left as-is. -/
def nfkdChar (c : Char) : List Char :=
  if c.toNat = 201 then [Char.ofNat 69, Char.ofNat 769]
  else if c.toNat = 233 then [Char.ofNat 101, Char.ofNat 769]
  else [c]

theorem toNat_charOfNat_of_lt (n : ℕ) (h : n < 55296) : (Char.ofNat n).toNat = n := by
  have hv : n.isValidChar := Or.inl h
  unfold Char.ofNat
  rw [dif_pos hv]
  rfl

theorem pyLower_toNat_of_upper (c : Char) (h : 65 ≤ c.toNat ∧ c.toNat ≤ 90) :
    (pyLower c).toNat = c.toNat + 32 := by
  unfold pyLower
  rw [if_pos h, toNat_charOfNat_of_lt]
  omega

theorem pyLower_eq_self (c : Char) (h : ¬(65 ≤ c.toNat ∧ c.toNat ≤ 90)) :
    pyLower c = c := by
  unfold pyLower
  rw [if_neg h]

theorem pyLower_not_upper (c : Char) :
    ¬(65 ≤ (pyLower c).toNat ∧ (pyLower c).toNat ≤ 90) := by
  by_cases h : 65 ≤ c.toNat ∧ c.toNat ≤ 90
  · rw [pyLower_toNat_of_upper c h]; omega
  · rw [pyLower_eq_self c h]; exact h

theorem pyLower_idem (c : Char) : pyLower (pyLower c) = pyLower c :=
  pyLower_eq_self _ (pyLower_not_upper c)

/-- Numeric value of a digit string, as computed by Python `int`/`float` on
an all-digit group. -/
def digitsVal (l : List Char) : ℕ := l.foldl (fun a c => 10 * a + (c.toNat - 48)) 0

/-- Models Python `str.strip()` (also the implicit whitespace-stripping of
`int(s)`): drop leading and trailing whitespace. -/
def stripWs (l : List Char) : List Char :=
  ((l.dropWhile isPySpace).reverse.dropWhile isPySpace).reverse

/-- Models `re.sub(r"\s+", " ", ·)`: every maximal whitespace run becomes one space. -/
def collapseWs (l : List Char) : List Char :=
  match l with
  | [] => []
  | c :: cs =>
    if isPySpace c then ' ' :: collapseWs (cs.dropWhile isPySpace)
    else c :: collapseWs cs
termination_by l.length
decreasing_by
  · have := (List.dropWhile_suffix (l := cs) isPySpace).length_le
    simp only [List.length_cons]
    omega
  · simp only [List.length_cons]
    omega

/-- Models Python `str.split()` (split on whitespace runs, dropping empty parts). -/
def splitNonWs (l : List Char) : List (List Char) :=
  match h : l.dropWhile isPySpace with
  | [] => []
  | c :: cs =>
    (c :: cs.takeWhile (fun d => !isPySpace d)) ::
      splitNonWs (cs.dropWhile (fun d => !isPySpace d))
termination_by l.length
decreasing_by
  have h1 := (List.dropWhile_suffix (l := l) isPySpace).length_le
  have h2 := (List.dropWhile_suffix (l := cs) (fun d => !isPySpace d)).length_le
  rw [h] at h1
  simp only [List.length_cons] at h1
  omega

/-- Models the Python substring test `needle in haystack`. -/
def listContains (needle : List Char) : List Char → Bool
  | [] => needle.isEmpty
  | c :: t => needle.isPrefixOf (c :: t) || listContains needle t

/-- Models the Python built-in `round` on a float with no `ndigits`:
round half to even (banker's rounding). -/
def pyRound (q : ℚ) : ℤ :=
  if q - (q.floor : ℚ) < (1 : ℚ)/2 then q.floor
  else if (1 : ℚ)/2 < q - (q.floor : ℚ) then q.floor + 1
  else if q.floor % 2 = 0 then q.floor else q.floor + 1

/-- Models Python `round(x, 2)`: round to two decimal places, half to even. -/
def round2 (q : ℚ) : ℚ := (pyRound (q * 100) : ℚ) / 100

/-- Models Python `float(s)` on the character repertoire reachable inside
`normalize.py` (after `re.sub` the string holds only digits, `.` and `,`):
accepted iff nonempty, made of digits and at most one dot, with at least one
digit; the value is the decimal value.  Any other string raises `ValueError`,
modelled as `none`. -/
def pyFloatOfString (l : List Char) : Option ℚ :=
  if l ≠ [] ∧ l.all (fun c => isPyDigit c || c == '.') ∧
      l.count '.' ≤ 1 ∧ l.any isPyDigit then
    some ((digitsVal (l.takeWhile (fun c => c ≠ '.')) : ℚ) +
      (digitsVal ((l.dropWhile (fun c => c ≠ '.')).tail) : ℚ) /
        (10 : ℚ) ^ ((l.dropWhile (fun c => c ≠ '.')).tail).length)
  else none

/-- Models Python `int(s)`: optional surrounding whitespace, optional sign,
then a nonempty digit string; anything else raises, modelled as `none`. -/
def pyIntOfString (l : List Char) : Option ℤ :=
  match stripWs l with
  | '-' :: ds => if ds ≠ [] ∧ ds.all isPyDigit then some (-(digitsVal ds : ℤ)) else none
  | '+' :: ds => if ds ≠ [] ∧ ds.all isPyDigit then some (digitsVal ds : ℤ) else none
  | ds => if ds ≠ [] ∧ ds.all isPyDigit then some (digitsVal ds : ℤ) else none

/-- Union type of the loosely-typed numeric/text fields of `RawListing`
(`Union[str, float, int]` in models.py). -/
inductive PyScalar where
  | int (n : ℤ)
  | float (q : ℚ)
  | str (s : String)
deriving DecidableEq

/-- Union type `Union[str, int]` (floor, build_year). -/
inductive IntStr where
  | int (n : ℤ)
  | str (s : String)
deriving DecidableEq

/-- Models `re.sub(r"[^\d\.,]", "", ·)`: keep only digits, dots and commas. -/
def keepNumChars (l : List Char) : List Char :=
  l.filter (fun c => isPyDigit c || c == '.' || c == ',')

/-- Models lines 35-45 of normalize.py (`parse_price` separator resolution):
with both separators present the earlier one is stripped as thousands
separator; with only commas, a comma followed by exactly three digits is a
thousands separator, otherwise it becomes the decimal point. -/
def resolveSeps (s : List Char) : List Char :=
  if '.' ∈ s ∧ ',' ∈ s then
    if s.findIdx (fun c => c == ',') < s.findIdx (fun c => c == '.') then
      s.filter (fun c => c ≠ ',')
    else
      ((s.filter (fun c => c ≠ '.')).map (fun c => if c = ',' then '.' else c))
  else if ',' ∈ s then
    let left := s.takeWhile (fun c => c ≠ ',')
    let right := (s.dropWhile (fun c => c ≠ ',')).tail
    if right.length = 3 ∧ right.all isPyDigit then left ++ right
    else left ++ '.' :: right
  else s

/-- Models lines 47-49 of normalize.py: if more than one dot remains, all but
the last are removed (treated as thousands separators). -/
def collapseDots (s : List Char) : List Char :=
  if s.count '.' > 1 then
    let parts := s.splitOn '.'
    (parts.dropLast).flatten ++ '.' :: (parts.getLast?.getD [])
  else s

/-- Models `parse_price` (normalize.py lines 22-54): numeric input is rounded
to the nearest integer (Python `round`), textual input goes through character
stripping, separator resolution and float parsing, falling back to 0. -/
def parse_price : PyScalar → ℤ
  | .int n => n
  | .float q => pyRound q
  | .str raw =>
    match pyFloatOfString (collapseDots (resolveSeps (keepNumChars raw.toList))) with
    | some q => pyRound q
    | none => 0

/-- Python float results as far as the exception behaviour of `parse_price`
needs them: a finite double abstracted to its exact value, or the infinite
result `float(s)` produces on decimal overflow. -/
inductive PyFloat where
  | finite (q : ℚ)
  | inf
deriving DecidableEq

/-- Smallest decimal value at which `float(s)` overflows to inf: the midpoint
between the largest finite double (2^1024 - 2^971) and 2^1024, which
round-to-nearest-even sends up to 2^1024, i.e. to infinity. -/
def overflowThreshold : ℚ := ((2 ^ 1024 - 2 ^ 970 : ℕ) : ℚ)

/-- Refinement of `pyFloatOfString` keeping the overflow outcome of Python
`float(s)`: a well-formed digit string whose value reaches
`overflowThreshold` yields inf instead of a finite value. -/
def pyFloatOfStringF (l : List Char) : Option PyFloat :=
  match pyFloatOfString l with
  | none => none
  | some q => if overflowThreshold ≤ q then some .inf else some (.finite q)

/-- Models `int(round(x))` on a Python float: raises `OverflowError` at an
infinite value (round of a finite float is exact). -/
def intRound : PyFloat → Except String ℤ
  | .finite q => .ok (pyRound q)
  | .inf => .error "OverflowError"

/-- Models the textual branch of `parse_price` (normalize.py lines 33-54)
with the Python exception behaviour made explicit: the `ValueError` of a
malformed `float(s)` is caught by `except ValueError` and becomes 0, but the
`OverflowError` raised by `int(round(·))` when `float(s)` has overflowed to
inf is not caught and escapes. -/
def parse_price_strE (s : String) : Except String ℤ :=
  match pyFloatOfStringF (collapseDots (resolveSeps (keepNumChars s.toList))) with
  | some f => intRound f
  | none => Except.ok 0

/-- Models `parse_floor` (normalize.py lines 57-69). -/
def parse_floor : Option IntStr → ℤ
  | none => 0
  | some (.int n) => n
  | some (.str s) =>
    let txt := (stripWs s.toList).map pyLower
    let ds := (txt.dropWhile (fun c => !isPyDigit c)).takeWhile isPyDigit
    if ds = [] then 0 else (digitsVal ds : ℤ)

/-- Models `parse_rooms` (normalize.py lines 72-85). -/
def parse_rooms : Option PyScalar → ℚ
  | none => 0
  | some (.int n) => (n : ℚ)
  | some (.float q) => q
  | some (.str s) =>
    ((pyFloatOfString ((keepNumChars s.toList).map
      (fun c => if c = ',' then '.' else c))).getD 0)

/-- Models `parse_living_space` (normalize.py lines 88-101). -/
def parse_living_space : Option PyScalar → ℚ
  | none => 0
  | some (.int n) => (n : ℚ)
  | some (.float q) => q
  | some (.str s) =>
    ((pyFloatOfString ((keepNumChars s.toList).map
      (fun c => if c = ',' then '.' else c))).getD 0)

/-- Models `parse_additional_costs` (normalize.py lines 104-116). -/
def parse_additional_costs : Option PyScalar → ℚ
  | none => 0
  | some (.int n) => (n : ℚ)
  | some (.float q) => q
  | some (.str s) =>
    ((pyFloatOfString ((keepNumChars s.toList).map
      (fun c => if c = ',' then '.' else c))).getD 0)

/-- Normalisation applied to the category text: `(raw or "").strip().lower()`. -/
def category_text (raw : Option String) : List Char :=
  (stripWs (raw.getD "").toList).map pyLower

/-- Models `map_category` (normalize.py lines 119-132). -/
def map_category (raw : Option String) : String :=
  let txt := category_text raw
  if listContains "apartment".toList txt then "apartment"
  else if listContains "house".toList txt then "house"
  else if listContains "ground".toList txt then "ground"
  else if listContains "commercial".toList txt then "commercial"
  else "other"

/-- Character pipeline of `clean_text` (normalize.py lines 142-147):
NFKD-decompose, drop combining marks, lowercase, replace non-word/non-space
characters by a space, collapse whitespace runs, strip the ends. -/
def cleanChars (l : List Char) : List Char :=
  stripWs (collapseWs
    ((((l.flatMap nfkdChar).filter (fun c => !isCombiningMark c)).map pyLower).map
      (fun c => if isPyWord c || isPySpace c then c else ' ')))

/-- Models `clean_text` (normalize.py lines 135-147); `if not raw` maps both
`None` and the empty string to `""`. -/
def clean_text (raw : Option String) : String :=
  match raw with
  | none => ""
  | some s => if s = "" then "" else ⟨cleanChars s.toList⟩

/-- Models `compute_price_per_sqm` (normalize.py lines 150-166). -/
def compute_price_per_sqm (price : ℤ) (living : ℚ) (payment_interval : Option String) : ℚ :=
  if living ≤ 0 then 0
  else
    let interval := (stripWs (payment_interval.getD "").toList).map pyLower
    if listContains "per_square_meter".toList interval then
      if "per_year".toList.isPrefixOf interval then round2 ((price : ℚ) / 12)
      else round2 (price : ℚ)
    else round2 ((price : ℚ) / living)

/-- Models `parse_build_year` (normalize.py lines 186-195): `None` stays
`None`, an int is returned unchanged, a string goes through `int(s)`;
any failure gives `None`. -/
def parse_build_year : Option IntStr → Option ℤ
  | none => none
  | some (.int n) => some n
  | some (.str s) => pyIntOfString s.toList

/-- Models the age expression of normalize.py line 227:
`(today.year - build_year) if build_year and today.year >= build_year else None`.
Python truthiness makes `build_year = 0` take the `else` branch. -/
def age (build_year : Option ℤ) (reference_year : ℤ) : Option ℤ :=
  match build_year with
  | none => none
  | some y => if y ≠ 0 ∧ y ≤ reference_year then some (reference_year - y) else none

/-- Models `datetime.date`: the calendar day abstracted to its year and its
proleptic ordinal (`date.toordinal()`), which is all the pipeline reads. -/
structure PyDate where
  year : ℤ
  ord : ℤ
deriving DecidableEq

/-- Models `datetime.datetime` as far as the pipeline uses it: only the
ordinal of its calendar date (`dt.date()`) is ever read. -/
structure PyDateTime where
  dateOrd : ℤ
deriving DecidableEq

/-- Models `parse_iso_datetime` (normalize.py lines 169-183) on the inputs the
pipeline feeds it: pydantic has already parsed `crawl_datetime` and
`published_datetime` into `datetime` values, so the
`isinstance(raw, datetime)` branch returns the value unchanged and the
`date`/string branches are unreachable from `normalize_listings`. -/
def parse_iso_datetime (raw : Option PyDateTime) : Option PyDateTime := raw

/-- Models `PropertyLocation` of models.py (coordinates abstracted to the
already-validated nullable floats). -/
structure PropertyLocation where
  street : Option String
  zip : Option String
  city : Option String
  canton : Option String
  coordinates : Option (Option ℚ × Option ℚ)
deriving DecidableEq

/-- Models `RawListing` of models.py. -/
structure RawListing where
  id : String
  platform : String
  price : PyScalar
  floor : Option IntStr
  rooms : Option PyScalar
  living_space : Option PyScalar
  plot_area : Option String
  property_category : Option String
  title : Option String
  description : Option String
  sale_type : String
  crawl_datetime : PyDateTime
  published_datetime : Option PyDateTime
  seller_type : String
  build_year : Option IntStr
  payment_interval : Option String
  additional_costs : Option PyScalar
  parking : Option Bool
  property_location : PropertyLocation
deriving DecidableEq

/-- Models `NormalizedListing` of models.py.  Note that models.py declares no
`rooms` field, so the `rooms=` keyword passed by normalize.py line 240 is
silently discarded by pydantic. -/
structure NormalizedListing where
  price : ℤ
  floor : ℤ
  living_space : ℚ
  propertyCategory : String
  title : String
  street : String
  price_per_sqm : ℚ
  title_length : ℕ
  title_word_count : ℕ
  description_length : ℕ
  description_word_count : ℕ
  additional_costs : ℚ
  build_year : Option ℤ
  age : Option ℤ
  days_since_published : Option ℤ
deriving DecidableEq

/-- Loop body of `normalize_listings` (normalize.py lines 209-255): the
normalized record built from one raw record, given the date read by
`date.today()` at the start of the call. -/
def normalizeOne (today : PyDate) (item : RawListing) : NormalizedListing :=
  let price := parse_price item.price
  let living := parse_living_space item.living_space
  let floor := parse_floor item.floor
  let rooms := parse_rooms item.rooms
  let category := map_category item.property_category
  let title := clean_text item.title
  let street := clean_text item.property_location.street
  let price_per_sqm := compute_price_per_sqm price living item.payment_interval
  let title_length := title.length
  let title_word_count := (splitNonWs title.toList).length
  let desc := clean_text item.description
  let description_length := desc.length
  let description_word_count := (splitNonWs desc.toList).length
  let additional_costs := parse_additional_costs item.additional_costs
  let build_year := parse_build_year item.build_year
  let ageVal := age build_year today.year
  let published_dt := parse_iso_datetime item.published_datetime
  let crawl_dt := parse_iso_datetime (some item.crawl_datetime)
  let published_date := published_dt.map PyDateTime.dateOrd
  let days_since_published :=
    match published_date, crawl_dt with
    | some pd, some cd => some (cd.dateOrd - pd)
    | _, _ => none
  -- `rooms` is computed (line 212) and passed (line 240) but models.py's
  -- NormalizedListing has no such field, so pydantic drops it.
  let _ := rooms
  { price := price
    floor := floor
    living_space := living
    propertyCategory := category
    title := title
    street := street
    price_per_sqm := price_per_sqm
    title_length := title_length
    title_word_count := title_word_count
    description_length := description_length
    description_word_count := description_word_count
    additional_costs := additional_costs
    build_year := build_year
    age := ageVal
    days_since_published := days_since_published }

/-- Models `normalize_listings` (normalize.py lines 198-257) with the value of
`date.today()` (line 206) made an explicit parameter: the loop appends one
normalized record per raw record to `out`. -/
def normalize_listings (today : PyDate) (raw_list : List RawListing) : List NormalizedListing :=
  raw_list.foldl (fun out item => out ++ [normalizeOne today item]) []

/-! Helper lemmas about rounding. -/

theorem ratFloor_eq_intFloor (q : ℚ) : q.floor = ⌊q⌋ := by
  rw [Rat.floor_def', Rat.floor_def]

theorem pyRound_dist (q : ℚ) : |(pyRound q : ℚ) - q| ≤ (1 : ℚ)/2 := by
  unfold pyRound
  simp only [ratFloor_eq_intFloor]
  have h1 : (⌊q⌋ : ℚ) ≤ q := Int.floor_le q
  have h2 : q < ⌊q⌋ + 1 := Int.lt_floor_add_one q
  split_ifs with ha hb hc
  · rw [abs_le]; constructor <;> linarith
  · rw [abs_le]; push_cast; constructor <;> linarith
  · rw [abs_le]
    have ha' := le_of_not_lt ha
    have hb' := le_of_not_lt hb
    constructor <;> linarith
  · rw [abs_le]
    have ha' := le_of_not_lt ha
    have hb' := le_of_not_lt hb
    push_cast
    constructor <;> linarith

theorem pyRound_half_even (q : ℚ) (n : ℤ) (h : q = (n : ℚ) + (1 : ℚ)/2) :
    2 ∣ pyRound q := by
  have hfr : ⌊q⌋ = n := by
    rw [h, add_comm, Int.floor_add_int]
    norm_num [Int.floor_eq_iff]
  have hr : q - (⌊q⌋ : ℚ) = (1 : ℚ)/2 := by rw [hfr, h]; ring
  unfold pyRound
  simp only [ratFloor_eq_intFloor, hr]
  simp only [lt_irrefl, if_false]
  rw [hfr]
  split_ifs with hpar
  · omega
  · omega

/-! Claim theorems: the numeric parsers. -/

/-- Claim C5 (corrected): for numeric input `parse_price` applies Python's
`round`, which rounds to the nearest integer and resolves exact halves to the
even neighbour (banker's rounding), not away from zero; integer input is
returned unchanged. -/
theorem parse_price_numeric (q : ℚ) (n : ℤ) :
    |(parse_price (.float q) : ℚ) - q| ≤ (1 : ℚ)/2 ∧
    (q = (n : ℚ) + (1 : ℚ)/2 → 2 ∣ parse_price (.float q)) ∧
    parse_price (.int n) = n := by
  refine ⟨pyRound_dist q, fun h => pyRound_half_even q n h, rfl⟩

theorem parse_price_numeric_witness :
    2 ∣ parse_price (.float ((3 : ℚ) + (1 : ℚ)/2)) ∧ parse_price (.int 7) = 7 :=
  ⟨(parse_price_numeric ((3 : ℚ) + (1 : ℚ)/2) 3).2.1 rfl,
   (parse_price_numeric ((3 : ℚ) + (1 : ℚ)/2) 7).2.2⟩

/-- Claim C5 counterexample: the claim's examples demand round half away from
zero (`parse_price(0.5) == 1`), but the code rounds half to even, so
`parse_price(0.5) == 0`. -/
theorem parse_price_half_not_away_from_zero :
    parse_price (.float ((1 : ℚ)/2)) = 0 ∧ parse_price (.float ((1 : ℚ)/2)) ≠ 1 := by
  with_unfolding_all decide

set_option maxRecDepth 8192 in
/-- Claim C3 (code_bug): the never-raises contract fails on the code.  On a
string of 309 nines, `float(s)` overflows to inf and `int(round(inf))`
raises `OverflowError`, which the `except ValueError` of lines 51-54 does
not catch, so `parse_price` aborts instead of returning the sentinel 0; a
genuinely malformed string such as "invalid" does degrade to 0 as documented. -/
theorem parse_price_can_raise :
    parse_price_strE ⟨List.replicate 309 '9'⟩ = Except.error "OverflowError" ∧
    parse_price_strE "invalid" = Except.ok 0 := by
  constructor
  · with_unfolding_all rfl
  · with_unfolding_all rfl

/-- Claim C4 (corrected): the age of line 227 is `None` exactly when
build_year is `None`, is `0` (Python truthiness of `build_year and ...`), or
exceeds the reference year; otherwise it is `reference_year - build_year`. -/
theorem age_spec (b : Option ℤ) (r : ℤ) :
    (age b r = none ↔ b = none ∨ b = some 0 ∨ ∃ y, b = some y ∧ r < y) ∧
    (∀ y : ℤ, b = some y → y ≠ 0 → y ≤ r → age b r = some (r - y)) := by
  constructor
  · cases b with
    | none => simp [age]
    | some y =>
      simp only [age]
      split_ifs with h
      · simp only [reduceCtorEq, false_iff]
        rintro (h0 | h0 | ⟨z, hz, hlt⟩)
        · exact absurd h0 (by simp)
        · rw [Option.some.injEq] at h0; exact h.1 h0
        · rw [Option.some.injEq] at hz; subst hz; omega
      · simp only [true_iff]
        rw [not_and_or] at h
        rcases h with h0 | hlt
        · right; left; simp only [Option.some.injEq]; omega
        · right; right; exact ⟨y, rfl, by omega⟩
  · intro y hb hy hle
    subst hb
    simp only [age, if_pos (And.intro hy hle)]

theorem age_spec_witness : age (some 1990) 2023 = some (2023 - 1990) :=
  (age_spec (some 1990) 2023).2 1990 rfl (by decide) (by decide)

/-- Claim C4 counterexample: a zero build year with reference year 2023 gives
`None`, not `Some 2023` as the claim's parenthetical requires. -/
theorem age_zero_build_year :
    age (some 0) 2023 = none ∧ age (some 0) 2023 ≠ some 2023 := by decide

/-- Claim C6: `parse_price` on text keeps only digits, dots and commas; with
both separators present the earlier one is removed as thousands separator and
the later becomes the decimal point; a lone comma is decimal unless followed
by exactly three digits; and the spec's three examples hold. -/
theorem parse_price_separator_rules :
    (∀ s : String,
      (keepNumChars s.toList).all (fun c => isPyDigit c || c == '.' || c == ',') = true) ∧
    (∀ l : List Char, '.' ∈ l → ',' ∈ l →
      resolveSeps l =
        if l.findIdx (fun c => c == ',') < l.findIdx (fun c => c == '.') then
          l.filter (fun c => c ≠ ',')
        else (l.filter (fun c => c ≠ '.')).map (fun c => if c = ',' then '.' else c)) ∧
    (∀ l : List Char, ',' ∈ l → '.' ∉ l →
      resolveSeps l =
        if ((l.dropWhile (fun c => c ≠ ',')).tail).length = 3 ∧
            ((l.dropWhile (fun c => c ≠ ',')).tail).all isPyDigit then
          l.takeWhile (fun c => c ≠ ',') ++ (l.dropWhile (fun c => c ≠ ',')).tail
        else l.takeWhile (fun c => c ≠ ',') ++ '.' :: (l.dropWhile (fun c => c ≠ ',')).tail) ∧
    parse_price (.str "CHF 1.200.000,00") = 1200000 ∧
    parse_price (.str "€3,500.50") = 3500 ∧
    parse_price (.str "invalid") = 0 := by
  refine ⟨?_, ?_, ?_, ?_, ?_, ?_⟩
  · intro s
    rw [List.all_eq_true]
    intro c hc
    exact (List.mem_filter.mp hc).2
  · intro l h1 h2
    unfold resolveSeps
    rw [if_pos ⟨h1, h2⟩]
  · intro l h1 h2
    unfold resolveSeps
    rw [if_neg (fun h => h2 h.1), if_pos h1]
  · with_unfolding_all decide
  · with_unfolding_all decide
  · with_unfolding_all decide

theorem parse_price_separator_rules_witness :
    resolveSeps ("3,500.50".toList) =
      (if ("3,500.50".toList).findIdx (fun c => c == ',') <
          ("3,500.50".toList).findIdx (fun c => c == '.') then
        ("3,500.50".toList).filter (fun c => c ≠ ',')
      else (("3,500.50".toList).filter (fun c => c ≠ '.')).map
        (fun c => if c = ',' then '.' else c)) :=
  parse_price_separator_rules.2.1 ("3,500.50".toList) (by decide) (by decide)

/-- Claim C7: `compute_price_per_sqm` returns 0 whenever living space is
nonpositive; otherwise a `per_square_meter` interval returns the price itself
(rounded to 2 decimals), divided by 12 when the interval starts with
`per_year`; otherwise price divided by living space, rounded to 2 decimals. -/
theorem compute_price_per_sqm_spec (price : ℤ) (living : ℚ) (pint : Option String) :
    (living ≤ 0 → compute_price_per_sqm price living pint = 0) ∧
    (0 < living →
      (listContains "per_square_meter".toList
          ((stripWs (pint.getD "").toList).map pyLower) = true →
        (("per_year".toList.isPrefixOf
            ((stripWs (pint.getD "").toList).map pyLower) = true →
          compute_price_per_sqm price living pint = round2 ((price : ℚ) / 12)) ∧
         ("per_year".toList.isPrefixOf
            ((stripWs (pint.getD "").toList).map pyLower) = false →
          compute_price_per_sqm price living pint = round2 (price : ℚ)))) ∧
      (listContains "per_square_meter".toList
          ((stripWs (pint.getD "").toList).map pyLower) = false →
        compute_price_per_sqm price living pint = round2 ((price : ℚ) / living))) := by
  refine ⟨fun h => ?_, fun hpos => ⟨fun hcont => ⟨fun hpre => ?_, fun hpre => ?_⟩,
    fun hcont => ?_⟩⟩
  · simp only [compute_price_per_sqm, if_pos h]
  · simp only [compute_price_per_sqm, if_neg (not_le.mpr hpos), hcont, hpre, if_true]
  · simp only [compute_price_per_sqm, if_neg (not_le.mpr hpos), hcont, hpre,
      Bool.false_eq_true, if_true, if_false]
  · simp only [compute_price_per_sqm, if_neg (not_le.mpr hpos), hcont,
      Bool.false_eq_true, if_false]

theorem compute_price_per_sqm_spec_witness :
    compute_price_per_sqm 24 2 (some "per_year_per_square_meter") =
      round2 ((24 : ℚ) / 12) :=
  (((compute_price_per_sqm_spec 24 2 (some "per_year_per_square_meter")).2
    (by norm_num)).1 (by with_unfolding_all decide)).1 (by with_unfolding_all decide)

theorem map_category_eq_find (raw : Option String) : map_category raw =
    (List.find? (fun tok => listContains tok.toList (category_text raw))
      ["apartment", "house", "ground", "commercial"]).getD "other" := by
  · unfold map_category
    cases h1 : listContains "apartment".toList (category_text raw) with
    | true => rw [if_pos h1, List.find?_cons_of_pos _ (by exact h1)]; rfl
    | false =>
      have h1' : ¬(listContains "apartment".toList (category_text raw) = true) := by
        rw [Bool.not_eq_true]; exact h1
      cases h2 : listContains "house".toList (category_text raw) with
      | true =>
        rw [if_neg h1', if_pos h2, List.find?_cons_of_neg _ (by exact h1'),
          List.find?_cons_of_pos _ (by exact h2)]
        rfl
      | false =>
        have h2' : ¬(listContains "house".toList (category_text raw) = true) := by
          rw [Bool.not_eq_true]; exact h2
        cases h3 : listContains "ground".toList (category_text raw) with
        | true =>
          rw [if_neg h1', if_neg h2', if_pos h3, List.find?_cons_of_neg _ (by exact h1'),
            List.find?_cons_of_neg _ (by exact h2'), List.find?_cons_of_pos _ (by exact h3)]
          rfl
        | false =>
          have h3' : ¬(listContains "ground".toList (category_text raw) = true) := by
            rw [Bool.not_eq_true]; exact h3
          cases h4 : listContains "commercial".toList (category_text raw) with
          | true =>
            rw [if_neg h1', if_neg h2', if_neg h3', if_pos h4,
              List.find?_cons_of_neg _ (by exact h1'), List.find?_cons_of_neg _ (by exact h2'),
              List.find?_cons_of_neg _ (by exact h3'), List.find?_cons_of_pos _ (by exact h4)]
            rfl
          | false =>
            have h4' : ¬(listContains "commercial".toList (category_text raw) = true) := by
              rw [Bool.not_eq_true]; exact h4
            rw [if_neg h1', if_neg h2', if_neg h3', if_neg h4',
              List.find?_cons_of_neg _ (by exact h1'), List.find?_cons_of_neg _ (by exact h2'),
              List.find?_cons_of_neg _ (by exact h3'), List.find?_cons_of_neg _ (by exact h4')]
            rfl

/-- Claim C9: `map_category` lowercases and trims the input, then returns the
first of apartment, house, ground, commercial occurring as a substring
(`List.find?` over the fixed priority order), `"other"` when none occurs or
the input is null/empty; the result is always one of the five values. -/
theorem map_category_spec :
    (∀ raw : Option String, map_category raw =
      (List.find? (fun tok => listContains tok.toList (category_text raw))
        ["apartment", "house", "ground", "commercial"]).getD "other") ∧
    (∀ raw : Option String, map_category raw ∈
      ["apartment", "house", "ground", "commercial", "other"]) ∧
    map_category none = "other" ∧ map_category (some "") = "other" := by
  refine ⟨map_category_eq_find, ?_, ?_, ?_⟩
  · intro raw
    rw [map_category_eq_find raw]
    cases hf : List.find? (fun tok => listContains tok.toList (category_text raw))
        ["apartment", "house", "ground", "commercial"] with
    | none => simp
    | some v =>
      have hv := List.mem_of_find?_eq_some hf
      simp only [Option.getD_some]
      simp only [List.mem_cons, List.not_mem_nil, or_false] at hv ⊢
      tauto
  · decide
  · decide

theorem count_dot_map_comma (l : List Char) :
    ((l.map (fun c => if c = ',' then '.' else c)).count '.') =
      l.count '.' + l.count ',' := by
  induction l with
  | nil => simp
  | cons c cs ih =>
    simp only [List.map_cons, List.count_cons, ih]
    by_cases hc : c = ','
    · subst hc
      norm_num
      rw [if_neg (show ¬((',' : Char) = '.') by decide)]
      omega
    · by_cases hd : c = '.'
      · subst hd
        norm_num
        rw [if_neg (show ¬(('.' : Char) = ',') by decide)]
        omega
      · have hb1 : (c == '.') = false := by simp [hd]
        have hb2 : (c == ',') = false := by simp [hc]
        rw [if_neg hc, hb1, hb2]
        simp

theorem pyFloat_none_of_two_dots (l : List Char) (h : 2 ≤ l.count '.') :
    pyFloatOfString l = none := by
  unfold pyFloatOfString
  rw [if_neg]
  rintro ⟨-, -, hc, -⟩
  omega

/-- Claim C10: when the characters retained from a textual input contain both
a dot and a comma, the three float parsers turn every comma into a dot, the
multi-dot string fails float parsing, and all three fall back to 0.0. -/
theorem float_parsers_mixed_separators (s : String)
    (hdot : '.' ∈ keepNumChars s.toList) (hcomma : ',' ∈ keepNumChars s.toList) :
    parse_living_space (some (.str s)) = 0 ∧
    parse_rooms (some (.str s)) = 0 ∧
    parse_additional_costs (some (.str s)) = 0 := by
  have h1 : 0 < (keepNumChars s.toList).count '.' := List.count_pos_iff.mpr hdot
  have h2 : 0 < (keepNumChars s.toList).count ',' := List.count_pos_iff.mpr hcomma
  have hcount :
      2 ≤ ((keepNumChars s.toList).map (fun c => if c = ',' then '.' else c)).count '.' := by
    rw [count_dot_map_comma]
    omega
  have hnone := pyFloat_none_of_two_dots _ hcount
  refine ⟨?_, ?_, ?_⟩ <;>
    simp only [parse_living_space, parse_rooms, parse_additional_costs, hnone, Option.getD_none]

theorem float_parsers_mixed_separators_witness :
    parse_living_space (some (.str "1.234,56")) = 0 ∧
    parse_rooms (some (.str "1.234,56")) = 0 ∧
    parse_additional_costs (some (.str "1.234,56")) = 0 :=
  float_parsers_mixed_separators "1.234,56" (by decide) (by decide)

/-! Helper lemmas for the text canonicaliser (claim C8). -/

theorem head?_dropWhile_false (p : Char → Bool) (l : List Char) :
    ∀ c ∈ (l.dropWhile p).head?, p c = false := by
  induction l with
  | nil => intro c hc; simp at hc
  | cons a as ih =>
    intro c hc
    rw [List.dropWhile_cons] at hc
    by_cases h : p a = true
    · rw [if_pos h] at hc; exact ih c hc
    · rw [if_neg h] at hc
      rw [List.head?_cons, Option.mem_def, Option.some.injEq] at hc
      subst hc
      rwa [Bool.not_eq_true] at h

theorem dropWhile_eq_self_of_head (p : Char → Bool) (l : List Char)
    (h : ∀ c ∈ l.head?, p c = false) : l.dropWhile p = l := by
  cases l with
  | nil => rfl
  | cons a as =>
    have ha : p a = false := h a rfl
    rw [List.dropWhile_cons, if_neg (by rw [ha]; exact Bool.false_ne_true)]

theorem getLast?_of_suffix {l₁ l₂ : List Char} (h : l₁ <:+ l₂) (hne : l₁ ≠ []) :
    l₁.getLast? = l₂.getLast? := by
  obtain ⟨t, rfl⟩ := h
  rw [List.getLast?_append]
  cases hb : l₁.getLast? with
  | none => exact absurd (List.getLast?_eq_none_iff.mp hb) hne
  | some x => rfl

theorem mem_stripWs {c : Char} {l : List Char} (h : c ∈ stripWs l) : c ∈ l := by
  unfold stripWs at h
  rw [List.mem_reverse] at h
  have h1 := (List.dropWhile_suffix isPySpace).subset h
  rw [List.mem_reverse] at h1
  exact (List.dropWhile_suffix isPySpace).subset h1

theorem head?_stripWs (l : List Char) :
    ∀ c ∈ (stripWs l).head?, isPySpace c = false := by
  intro c hc
  unfold stripWs at hc
  rw [List.head?_reverse] at hc
  by_cases hb : (l.dropWhile isPySpace).reverse.dropWhile isPySpace = []
  · rw [hb] at hc; simp at hc
  · rw [getLast?_of_suffix (List.dropWhile_suffix isPySpace) hb,
      List.getLast?_reverse] at hc
    exact head?_dropWhile_false isPySpace l c hc

theorem getLast?_stripWs (l : List Char) :
    ∀ c ∈ (stripWs l).getLast?, isPySpace c = false := by
  intro c hc
  unfold stripWs at hc
  rw [List.getLast?_reverse] at hc
  exact head?_dropWhile_false isPySpace _ c hc

theorem stripWs_eq_self (l : List Char)
    (h1 : ∀ c ∈ l.head?, isPySpace c = false)
    (h2 : ∀ c ∈ l.getLast?, isPySpace c = false) : stripWs l = l := by
  unfold stripWs
  rw [dropWhile_eq_self_of_head _ _ h1]
  rw [dropWhile_eq_self_of_head _ _ (by rw [List.head?_reverse]; exact h2)]
  exact List.reverse_reverse l

theorem collapseWs_nil : collapseWs [] = [] := by simp only [collapseWs]

theorem collapseWs_cons_ws {c : Char} {cs : List Char} (h : isPySpace c = true) :
    collapseWs (c :: cs) = ' ' :: collapseWs (cs.dropWhile isPySpace) := by
  simp only [collapseWs, h, if_true]

theorem collapseWs_cons_notws {c : Char} {cs : List Char} (h : isPySpace c = false) :
    collapseWs (c :: cs) = c :: collapseWs cs := by
  simp only [collapseWs]
  rw [if_neg (by rw [h]; exact Bool.false_ne_true)]

theorem mem_collapseWs {c : Char} {l : List Char} (h : c ∈ collapseWs l) :
    c = ' ' ∨ (c ∈ l ∧ isPySpace c = false) := by
  induction l using collapseWs.induct with
  | case1 => rw [collapseWs_nil] at h; exact absurd h (List.not_mem_nil c)
  | case2 d ds hd ih =>
    rw [collapseWs_cons_ws hd] at h
    rcases List.mem_cons.mp h with h1 | h1
    · left; exact h1
    · rcases ih h1 with h2 | ⟨h2, h3⟩
      · left; exact h2
      · right
        exact ⟨List.mem_cons_of_mem d ((List.dropWhile_suffix isPySpace).subset h2), h3⟩
  | case3 d ds hd ih =>
    rw [collapseWs_cons_notws (by rwa [Bool.not_eq_true] at hd)] at h
    rcases List.mem_cons.mp h with h1 | h1
    · subst h1
      right
      exact ⟨List.mem_cons_self _ _, by rwa [Bool.not_eq_true] at hd⟩
    · rcases ih h1 with h2 | ⟨h2, h3⟩
      · left; exact h2
      · right; exact ⟨List.mem_cons_of_mem d h2, h3⟩

/-- Two adjacent characters are never both whitespace. -/
def NoTwoWs : Char → Char → Prop :=
  fun a b => ¬(isPySpace a = true ∧ isPySpace b = true)

theorem collapseWs_head_not_ws {l : List Char}
    (hl : ∀ c ∈ l.head?, isPySpace c = false) :
    ∀ c ∈ (collapseWs l).head?, isPySpace c = false := by
  cases l with
  | nil => rw [collapseWs_nil]; intro c hc; simp at hc
  | cons d ds =>
    intro c hc
    have hd : isPySpace d = false := hl d rfl
    rw [collapseWs_cons_notws hd, List.head?_cons, Option.mem_def,
      Option.some.injEq] at hc
    subst hc
    exact hd

theorem chain'_collapseWs (l : List Char) : List.Chain' NoTwoWs (collapseWs l) := by
  induction l using collapseWs.induct with
  | case1 => rw [collapseWs_nil]; exact List.chain'_nil
  | case2 c cs hc ih =>
    rw [collapseWs_cons_ws hc, List.chain'_cons']
    refine ⟨?_, ih⟩
    intro y hy hcon
    have hnws := collapseWs_head_not_ws (head?_dropWhile_false isPySpace cs) y hy
    rw [hnws] at hcon
    exact Bool.false_ne_true hcon.2
  | case3 c cs hc ih =>
    rw [collapseWs_cons_notws (by rwa [Bool.not_eq_true] at hc), List.chain'_cons']
    refine ⟨?_, ih⟩
    intro y hy hcon
    rw [Bool.not_eq_true] at hc
    rw [hc] at hcon
    exact Bool.false_ne_true hcon.1

theorem collapseWs_eq_self : ∀ l : List Char,
    (∀ c ∈ l, isPySpace c = true → c = ' ') →
    List.Chain' NoTwoWs l → collapseWs l = l := by
  intro l
  induction l using collapseWs.induct with
  | case1 => intro _ _; exact collapseWs_nil
  | case2 c cs hc ih =>
    intro hws hch
    have hceq : c = ' ' := hws c (List.mem_cons_self _ _) hc
    have hhead : ∀ y ∈ cs.head?, isPySpace y = false := by
      intro y hy
      have hpair := (List.chain'_cons'.mp hch).1 y hy
      by_contra hyy
      rw [Bool.not_eq_false] at hyy
      exact hpair ⟨hc, hyy⟩
    have hdrop : cs.dropWhile isPySpace = cs := dropWhile_eq_self_of_head _ _ hhead
    rw [hdrop] at ih
    rw [collapseWs_cons_ws hc, hdrop,
      ih (fun y hy => hws y (List.mem_cons_of_mem _ hy)) hch.tail, hceq]
  | case3 c cs hc ih =>
    intro hws hch
    rw [collapseWs_cons_notws (by rwa [Bool.not_eq_true] at hc),
      ih (fun y hy => hws y (List.mem_cons_of_mem _ hy)) hch.tail]

theorem noTwoWs_flip {a b : Char} (h : NoTwoWs a b) : NoTwoWs b a :=
  fun hc => h ⟨hc.2, hc.1⟩

theorem chain'_reverse_noTwoWs {l : List Char} (h : List.Chain' NoTwoWs l) :
    List.Chain' NoTwoWs l.reverse := by
  rw [List.chain'_reverse]
  exact h.imp (fun _ _ hab => noTwoWs_flip hab)

theorem chain'_stripWs {l : List Char} (h : List.Chain' NoTwoWs l) :
    List.Chain' NoTwoWs (stripWs l) := by
  unfold stripWs
  exact chain'_reverse_noTwoWs
    (((chain'_reverse_noTwoWs (h.suffix (List.dropWhile_suffix _))).suffix
      (List.dropWhile_suffix _)))

/-- Characters that can appear in `clean_text` output: a space, or a
lowercase-stable word character. -/
def GoodChar (c : Char) : Prop :=
  c = ' ' ∨ (isPyWord c = true ∧ pyLower c = c ∧ isPySpace c = false)

theorem word_bounds {c : Char} (h : isPyWord c = true) :
    (97 ≤ c.toNat ∧ c.toNat ≤ 122) ∨ (65 ≤ c.toNat ∧ c.toNat ≤ 90) ∨
    (48 ≤ c.toNat ∧ c.toNat ≤ 57) ∨ c.toNat = 95 := of_decide_eq_true h

theorem good_nfkd {c : Char} (h : GoodChar c) : nfkdChar c = [c] := by
  rcases h with h | ⟨hw, _, _⟩
  · subst h; decide
  · have hb := word_bounds hw
    unfold nfkdChar
    rw [if_neg (by omega), if_neg (by omega)]

theorem good_comb {c : Char} (h : GoodChar c) : isCombiningMark c = false := by
  rcases h with h | ⟨hw, _, _⟩
  · subst h; decide
  · have hb := word_bounds hw
    exact decide_eq_false (by omega)

theorem good_lower {c : Char} (h : GoodChar c) : pyLower c = c := by
  rcases h with h | ⟨_, hl, _⟩
  · subst h; decide
  · exact hl

theorem good_sub {c : Char} (h : GoodChar c) :
    (if isPyWord c || isPySpace c then c else ' ') = c := by
  rcases h with h | ⟨hw, _, _⟩
  · subst h; decide
  · have hcond : (isPyWord c || isPySpace c) = true := by rw [hw]; exact Bool.true_or _
    rw [if_pos hcond]

theorem good_ws_space {c : Char} (h : GoodChar c) (hws : isPySpace c = true) :
    c = ' ' := by
  rcases h with h | ⟨_, _, hns⟩
  · exact h
  · rw [hns] at hws; exact absurd hws Bool.false_ne_true

theorem flatMap_nfkd_id {l : List Char} (h : ∀ c ∈ l, nfkdChar c = [c]) :
    l.flatMap nfkdChar = l := by
  induction l with
  | nil => rfl
  | cons a as ih =>
    rw [List.flatMap_cons, h a (List.mem_cons_self _ _),
      ih (fun c hc => h c (List.mem_cons_of_mem _ hc))]
    rfl

theorem map_id_of {f : Char → Char} {l : List Char} (h : ∀ c ∈ l, f c = c) :
    l.map f = l := by
  induction l with
  | nil => rfl
  | cons a as ih =>
    rw [List.map_cons, h a (List.mem_cons_self _ _),
      ih (fun c hc => h c (List.mem_cons_of_mem _ hc))]

theorem mem_cleanChars_good {c : Char} {l : List Char} (h : c ∈ cleanChars l) :
    GoodChar c := by
  unfold cleanChars at h
  have h1 := mem_stripWs h
  rcases mem_collapseWs h1 with h2 | ⟨h2, hnw⟩
  · left; exact h2
  · rw [List.mem_map] at h2
    obtain ⟨d, hd, hsub⟩ := h2
    by_cases hword : (isPyWord d || isPySpace d) = true
    · rw [if_pos hword] at hsub
      subst hsub
      rcases (Bool.or_eq_true _ _).mp hword with hw | hs
      · right
        refine ⟨hw, ?_, hnw⟩
        rw [List.mem_map] at hd
        obtain ⟨e, _, he⟩ := hd
        rw [← he]
        exact pyLower_idem e
      · rw [hs] at hnw; exact absurd hnw (by simp)
    · rw [if_neg hword] at hsub
      left; exact hsub.symm

theorem cleanChars_eq_self {l : List Char}
    (hgood : ∀ c ∈ l, GoodChar c)
    (hch : List.Chain' NoTwoWs l)
    (hh : ∀ c ∈ l.head?, isPySpace c = false)
    (hl : ∀ c ∈ l.getLast?, isPySpace c = false) : cleanChars l = l := by
  unfold cleanChars
  rw [flatMap_nfkd_id (fun c hc => good_nfkd (hgood c hc))]
  rw [List.filter_eq_self.mpr (fun c hc => by rw [good_comb (hgood c hc)]; rfl)]
  rw [map_id_of (fun c hc => good_lower (hgood c hc))]
  rw [map_id_of (fun c hc => good_sub (hgood c hc))]
  rw [collapseWs_eq_self l (fun c hc hws => good_ws_space (hgood c hc) hws) hch]
  exact stripWs_eq_self l hh hl

theorem cleanChars_idem (l : List Char) : cleanChars (cleanChars l) = cleanChars l := by
  apply cleanChars_eq_self
  · intro c hc; exact mem_cleanChars_good hc
  · unfold cleanChars; exact chain'_stripWs (chain'_collapseWs _)
  · unfold cleanChars; exact head?_stripWs _
  · unfold cleanChars; exact getLast?_stripWs _

theorem clean_text_some_eq (s : String) :
    clean_text (some s) = if s = "" then "" else ⟨cleanChars s.toList⟩ := rfl

/-- Claim C8: `clean_text` is idempotent, maps null and empty input to the
empty string, and accent-folds, lowercases, strips punctuation and collapses
whitespace as in the spec's example. -/
theorem clean_text_idempotent :
    (∀ x : Option String, clean_text (some (clean_text x)) = clean_text x) ∧
    clean_text (some "Éléphant Café") = "elephant cafe" ∧
    clean_text none = "" ∧ clean_text (some "") = "" := by
  refine ⟨?_, by with_unfolding_all decide, rfl, by with_unfolding_all decide⟩
  intro x
  match x with
  | none =>
    show clean_text (some "") = clean_text none
    with_unfolding_all decide
  | some s =>
    by_cases hs : s = ""
    · subst hs
      with_unfolding_all decide
    · rw [clean_text_some_eq s, if_neg hs, clean_text_some_eq]
      by_cases ho : (⟨cleanChars s.toList⟩ : String) = ""
      · rw [if_pos ho]
        exact ho.symm
      · rw [if_neg ho]
        have hlist : (String.toList (⟨cleanChars s.toList⟩ : String)) = cleanChars s.toList := rfl
        rw [hlist, cleanChars_idem]

/-! Helper lemma and claim theorems for the pipeline (claims C1, C2). -/

theorem foldl_append_eq_map (today : PyDate) (l : List RawListing)
    (acc : List NormalizedListing) :
    l.foldl (fun out item => out ++ [normalizeOne today item]) acc =
      acc ++ l.map (normalizeOne today) := by
  induction l generalizing acc with
  | nil => simp
  | cons a as ih => simp [List.foldl_cons, ih]

/-- Claim C1: `normalize_listings` is a strict one-to-one, order-preserving
map: the output has the input's length and the i-th output record is exactly
the per-record normalization (field parsers plus feature engineering) of the
i-th input record; no record is dropped, merged or reordered. -/
theorem normalize_listings_one_to_one (today : PyDate) (raw_list : List RawListing) :
    (normalize_listings today raw_list).length = raw_list.length ∧
    ∀ i : ℕ, (normalize_listings today raw_list)[i]? =
      (raw_list[i]?).map (normalizeOne today) := by
  have hmap : normalize_listings today raw_list = raw_list.map (normalizeOne today) := by
    unfold normalize_listings
    rw [foldl_append_eq_map]
    exact List.nil_append _
  constructor
  · rw [hmap, List.length_map]
  · intro i
    rw [hmap, List.getElem?_map]

/-- Sample raw listing used by concrete evaluations. -/
def sampleListing : RawListing :=
  { id := "1", platform := "p", price := .int 0, floor := none, rooms := none,
    living_space := none, plot_area := none, property_category := none,
    title := none, description := none, sale_type := "s",
    crawl_datetime := ⟨0⟩, published_datetime := none, seller_type := "x",
    build_year := some (.int 1990), payment_interval := none,
    additional_costs := none, parking := none,
    property_location := ⟨none, none, none, none, none⟩ }

/-- Claim C2 counterexample: `normalize_listings` reads `date.today()`
(line 206), so the same batch normalized during 2020 and during 2021 yields
different outputs (the age feature changes); the operation is not a pure
function of the batch alone. -/
theorem normalize_listings_not_time_invariant :
    normalize_listings ⟨2020, 0⟩ [sampleListing] ≠
      normalize_listings ⟨2021, 0⟩ [sampleListing] := by
  with_unfolding_all decide

/-- Claim C2 (amended): `normalize_listings` writes no external state and
reads only `date.today()`; its output is determined by the input batch
together with the current year — two invocations on the same batch at dates
with the same calendar year produce identical outputs. -/
theorem normalize_listings_determined_by_year (d1 d2 : PyDate)
    (raws : List RawListing) (h : d1.year = d2.year) :
    normalize_listings d1 raws = normalize_listings d2 raws := by
  have hone : ∀ item, normalizeOne d1 item = normalizeOne d2 item := by
    intro item
    unfold normalizeOne
    rw [h]
  unfold normalize_listings
  rw [foldl_append_eq_map, foldl_append_eq_map, List.nil_append, List.nil_append]
  exact List.map_congr_left (fun a _ => hone a)

theorem normalize_listings_determined_by_year_witness :
    normalize_listings ⟨2023, 0⟩ [sampleListing] =
      normalize_listings ⟨2023, 99⟩ [sampleListing] :=
  normalize_listings_determined_by_year ⟨2023, 0⟩ ⟨2023, 99⟩ [sampleListing] rfl

end Normalize
